import Mathlib

/-!
Verification development for the memory MCP server (path-namespaced file
store with six commands: view, create, str_replace, insert, delete, rename).

The path validator is embedded from the repository's documented validation
pattern for `validatePath` (CLAUDE.md, the in-repo source for
`src/memory/path-security.ts`): a namespace check via JS
`String.prototype.startsWith('/memories')`, resolution of the joined path
with Node `path.resolve` (lexical normalization of `.` / `..` / repeated and
trailing separators, `/` as the only separator), and a containment check via
`resolvedPath.startsWith(resolvedRoot)` on the resolved strings.

Strings are modelled through their character lists; JS string operations are
embedded as executable functions on `List Char`.
-/

namespace MemoryMcp

/-- Boolean prefix test on lists; embeds JS `String.prototype.startsWith`
when applied to the character lists of the two strings. -/
def isPfx {α : Type} [DecidableEq α] : List α → List α → Bool
  | [], _ => true
  | _ :: _, [] => false
  | a :: l, b :: m => if a = b then isPfx l m else false

theorem isPfx_iff {α : Type} [DecidableEq α] (l m : List α) :
    isPfx l m = true ↔ ∃ t, m = l ++ t := by
  induction l generalizing m with
  | nil => simp [isPfx]
  | cons a l ih =>
    cases m with
    | nil => simp [isPfx]
    | cons b m =>
      by_cases hab : a = b
      · subst hab
        simp [isPfx, ih]
      · simp only [isPfx, if_neg hab]
        constructor
        · intro h; simp at h
        · rintro ⟨t, ht⟩
          rw [List.cons_append] at ht
          injection ht with h1 h2
          exact absurd h1.symm hab

theorem isPfx_append_self {α : Type} [DecidableEq α] (l t : List α) :
    isPfx l (l ++ t) = true :=
  (isPfx_iff l (l ++ t)).mpr ⟨t, rfl⟩

theorem isPfx_refl {α : Type} [DecidableEq α] (l : List α) :
    isPfx l l = true := by
  have := isPfx_append_self l []
  simpa using this

/-- Splitting a character list at a separator character; embeds JS
`String.prototype.split` for a one-character separator, which Node's path
handling uses with `'/'`. -/
def splitOnChar (sep : Char) : List Char → List (List Char)
  | [] => [[]]
  | c :: rest =>
    match splitOnChar sep rest with
    | [] => [[]]
    | h :: t => if c = sep then [] :: h :: t else (c :: h) :: t

theorem splitOnChar_ne_nil (sep : Char) (xs : List Char) :
    splitOnChar sep xs ≠ [] := by
  cases xs with
  | nil => simp [splitOnChar]
  | cons c rest =>
    simp only [splitOnChar]
    match splitOnChar sep rest with
    | [] => simp
    | h :: t => by_cases hc : c = sep <;> simp [hc]

theorem splitOnChar_cons_exists (sep : Char) (xs : List Char) :
    ∃ h t, splitOnChar sep xs = h :: t := by
  match hsp : splitOnChar sep xs with
  | [] => exact absurd hsp (splitOnChar_ne_nil sep xs)
  | h :: t => exact ⟨h, t, rfl⟩

theorem splitOnChar_append_sep (sep : Char) (xs ys : List Char) :
    splitOnChar sep (xs ++ sep :: ys) = splitOnChar sep xs ++ splitOnChar sep ys := by
  induction xs with
  | nil =>
    obtain ⟨h, t, hht⟩ := splitOnChar_cons_exists sep ys
    simp [splitOnChar, hht]
  | cons c rest ih =>
    obtain ⟨h, t, hht⟩ := splitOnChar_cons_exists sep rest
    have hl : splitOnChar sep (rest ++ sep :: ys) = h :: (t ++ splitOnChar sep ys) := by
      rw [ih, hht]; simp
    by_cases hc : c = sep
    · simp [splitOnChar, hl, hht, hc]
    · simp [splitOnChar, hl, hht, hc]

theorem splitOnChar_no_sep (sep : Char) (xs : List Char) (h : sep ∉ xs) :
    splitOnChar sep xs = [xs] := by
  induction xs with
  | nil => rfl
  | cons c rest ih =>
    have hc : c ≠ sep := fun hc => h (hc ▸ List.mem_cons_self c rest)
    have hrest : sep ∉ rest := fun hr => h (List.mem_cons_of_mem c hr)
    simp only [splitOnChar, ih hrest, if_neg hc]

/-- One normalization step of Node `path.resolve`: empty segments (repeated
or trailing separators) and `.` are dropped, `..` removes the previous
segment (or nothing at the filesystem root), any other segment is kept. -/
def normStep (acc : List (List Char)) (seg : List Char) : List (List Char) :=
  if seg = [] then acc
  else if seg = ['.'] then acc
  else if seg = ['.', '.'] then acc.dropLast
  else acc ++ [seg]

/-- Lexical normalization of an absolute path's segments, as performed by
Node `path.resolve` on an absolute input. -/
def normSegs (segs : List (List Char)) : List (List Char) :=
  segs.foldl normStep []

/-- Render segments with a leading separator before each one; helper for
reassembling an absolute path string. -/
def slashSegs : List (List Char) → List Char
  | [] => []
  | s :: rest => '/' :: (s ++ slashSegs rest)

theorem slashSegs_append (a b : List (List Char)) :
    slashSegs (a ++ b) = slashSegs a ++ slashSegs b := by
  induction a with
  | nil => simp [slashSegs]
  | cons s rest ih => simp [slashSegs, ih]

/-- Reassemble normalized segments into an absolute path string: `/` when no
segments remain, otherwise each segment preceded by `/` (no trailing
separator), matching Node `path.resolve` output. -/
def renderAbs : List (List Char) → List Char
  | [] => ['/']
  | s :: rest => slashSegs (s :: rest)

theorem renderAbs_isPfx (a b : List (List Char)) :
    isPfx (renderAbs a) (renderAbs (a ++ b)) = true := by
  cases a with
  | nil =>
    cases b with
    | nil => simp [renderAbs, isPfx]
    | cons s rest => simp [renderAbs, slashSegs, isPfx]
  | cons s rest =>
    have hre : renderAbs ((s :: rest) ++ b) = slashSegs (s :: rest) ++ slashSegs b := by
      cases b with
      | nil => simp [renderAbs, slashSegs]
      | cons s2 r2 =>
        rw [List.cons_append]
        show slashSegs (s :: (rest ++ s2 :: r2)) = _
        rw [← List.cons_append, slashSegs_append]
    rw [hre]
    exact isPfx_append_self _ _

/-- Embeds Node `path.resolve` applied to an absolute path string: split on
`/`, normalize `.` / `..` / empty segments, reassemble. -/
def pathResolve (s : String) : String :=
  ⟨renderAbs (normSegs (splitOnChar '/' s.data))⟩

/-- The normalized segment list of a path string. -/
def componentsOf (s : String) : List (List Char) :=
  normSegs (splitOnChar '/' s.data)

/-- Component-wise containment: the normalized segments of `root` are an
initial run of the normalized segments of `phys`. This is the containment
notion the specification's Invariant 1 asserts (descendant-or-equal under
segment comparison, not string comparison). -/
def componentWithin (phys root : String) : Bool :=
  isPfx (componentsOf root) (componentsOf phys)

/-- Whether a virtual path starts with the `/memories` namespace followed by
a path boundary: it is exactly `/memories` or continues with `/`. -/
def hasMemoriesBoundary (p : String) : Bool :=
  p == "/memories" || isPfx "/memories/".data p.data

/-- Embedded from the repository's `validatePath` pattern (CLAUDE.md lines
87–101, the in-repo source for `src/memory/path-security.ts`): reject unless
the virtual path starts with the string `/memories`; join the remainder onto
the memory root, resolve it lexically, and reject unless the resolved path
starts with the resolved root as a string. The elided `relativePath` of the
pattern is the remainder of the virtual path after the `/memories` prefix,
as in the reference implementation the pattern cites; `path.join` followed
by `path.resolve` is embedded as separator-concatenation followed by
`pathResolve`, which agree lexically. `resolvedTarget` is the pattern's
`resolvedPath` value, named so the acceptance branch can be stated. -/
def resolvedTarget (memoryPath : String) (memoryRoot : String) : String :=
  pathResolve ⟨memoryRoot.data ++ '/' :: memoryPath.data.drop ("/memories".data.length)⟩

/-- The validator itself: namespace check, then string containment check of
the resolved path against the resolved root, as in the embedded pattern. -/
def validatePath (memoryPath : String) (memoryRoot : String) : Except String String :=
  if isPfx "/memories".data memoryPath.data then
    if isPfx (pathResolve memoryRoot).data (resolvedTarget memoryPath memoryRoot).data then
      Except.ok (resolvedTarget memoryPath memoryRoot)
    else Except.error "Path would escape /memories directory"
  else Except.error "Path must start with /memories"

/-- Counting of (possibly overlapping) occurrences of `needle` starting at
each position of `hay`; substring containment is `1 ≤ countOccs`. -/
def countOccs (needle : List Char) : List Char → Nat
  | [] => if needle = [] then 1 else 0
  | c :: rest => (if isPfx needle (c :: rest) then 1 else 0) + countOccs needle rest

/-- Substring containment of `needle` in `hay`, via occurrence counting. -/
def strContains (hay needle : String) : Prop :=
  1 ≤ countOccs needle.data hay.data

instance (hay needle : String) : Decidable (strContains hay needle) := by
  unfold strContains
  exact Nat.decLe 1 (countOccs needle.data hay.data)

theorem countOccs_le_append_right (nd a b : List Char) :
    countOccs nd a ≤ countOccs nd (b ++ a) := by
  induction b with
  | nil => simp
  | cons c rest ih =>
    calc countOccs nd a ≤ countOccs nd (rest ++ a) := ih
      _ ≤ (if isPfx nd (c :: (rest ++ a)) then 1 else 0) + countOccs nd (rest ++ a) := by
          exact Nat.le_add_left _ _
      _ = countOccs nd (c :: (rest ++ a)) := by rw [countOccs]
      _ = countOccs nd ((c :: rest) ++ a) := by simp

theorem countOccs_nil_needle (b : List Char) : 1 ≤ countOccs [] b := by
  cases b with
  | nil => simp [countOccs]
  | cons c rest => simp [countOccs, isPfx]

theorem countOccs_middle (nd a b : List Char) :
    1 ≤ countOccs nd (a ++ nd ++ b) := by
  have hbase : 1 ≤ countOccs nd (nd ++ b) := by
    cases nd with
    | nil => simpa using countOccs_nil_needle b
    | cons c rest =>
      have hp : isPfx (c :: rest) (c :: (rest ++ b)) = true :=
        isPfx_append_self (c :: rest) b
      have hrw : countOccs (c :: rest) ((c :: rest) ++ b)
          = 1 + countOccs (c :: rest) (rest ++ b) := by
        rw [List.cons_append, countOccs, if_pos hp]
      rw [hrw]
      exact Nat.le_add_right 1 _
  calc 1 ≤ countOccs nd (nd ++ b) := hbase
    _ ≤ countOccs nd (a ++ (nd ++ b)) := countOccs_le_append_right nd (nd ++ b) a
    _ = countOccs nd (a ++ nd ++ b) := by rw [List.append_assoc]

theorem strData_append (s t : String) : (s ++ t).data = s.data ++ t.data := by
  cases s; cases t; rfl

theorem strContains_of_decomp (hay needle : String) (a b : List Char)
    (h : hay.data = a ++ needle.data ++ b) : strContains hay needle := by
  unfold strContains
  rw [h]
  exact countOccs_middle needle.data a b

/-- Whether a virtual path contains a traversal segment (`.` or `..`)
between separators. -/
def hasTraversalSeg (p : String) : Bool :=
  (splitOnChar '/' p.data).any (fun s => s == ['.'] || s == ['.', '.'])

/-! Model validation: the embedded validator reproduces the expectations of
the repository's path-security test suite (`test/path-security.test.ts`). -/

theorem modelCheck_root :
    validatePath "/memories" "/tmp/test-memory" = Except.ok "/tmp/test-memory" := by rfl

theorem modelCheck_nested :
    validatePath "/memories/subdir/file.txt" "/tmp/test-memory"
      = Except.ok "/tmp/test-memory/subdir/file.txt" := by rfl

theorem modelCheck_missing_slash :
    validatePath "memories/file.txt" "/tmp/test-memory"
      = Except.error "Path must start with /memories" := by rfl

theorem modelCheck_traversal_rejected :
    validatePath "/memories/sub/../../../etc/passwd" "/tmp/test-memory"
      = Except.error "Path would escape /memories directory" := by rfl

theorem modelCheck_dot_segment :
    validatePath "/memories/./file.txt" "/tmp/test-memory"
      = Except.ok "/tmp/test-memory/file.txt" := by rfl

theorem modelCheck_double_slash_and_trailing :
    validatePath "/memories//file.txt" "/tmp/test-memory"
      = Except.ok "/tmp/test-memory/file.txt"
    ∧ validatePath "/memories/subdir/" "/tmp/test-memory"
      = Except.ok "/tmp/test-memory/subdir" := ⟨by rfl, by rfl⟩

/-- C1 (counterexample): with storage root `/tmp/test-memory`, the virtual
path `/memories/../test-memory-evil/f` is accepted by the validator and
resolves to `/tmp/test-memory-evil/f`, a sibling directory whose name merely
extends the root's name as a string; it is not a component-wise descendant
of the root, so the claimed invariant fails at this input. -/
theorem c1_sibling_escape_counterexample :
    validatePath "/memories/../test-memory-evil/f" "/tmp/test-memory"
      = Except.ok "/tmp/test-memory-evil/f"
    ∧ componentWithin "/tmp/test-memory-evil/f" "/tmp/test-memory" = false :=
  ⟨by rfl, by decide⟩

/-- C1 (amended): every physical path returned by the validator extends the
canonicalized storage root as a string (the containment actually checked by
the embedded `resolvedPath.startsWith(resolvedRoot)` test); component-wise
descent is not guaranteed. -/
theorem c1_amended_string_containment (p root phys : String)
    (h : validatePath p root = Except.ok phys) :
    isPfx (pathResolve root).data phys.data = true := by
  unfold validatePath at h
  split at h
  · split at h
    · injection h with h3
      rename_i h2
      rw [← h3]
      exact h2
    · exact Except.noConfusion h
  · exact Except.noConfusion h

theorem c1_amended_string_containment_witness :
    isPfx (pathResolve "/tmp/w1").data ("/tmp/w1/notes.txt" : String).data = true :=
  c1_amended_string_containment "/memories/notes.txt" "/tmp/w1" "/tmp/w1/notes.txt" (by rfl)

/-- C2 (counterexample): `/memories/../mem-evil/x` contains a traversal
segment and lexically resolves outside the storage root `/tmp/mem`
(component-wise), yet the validator accepts it instead of failing with the
escape error, because the resolved string `/tmp/mem-evil/x` extends
`/tmp/mem` as a string. -/
theorem c2_traversal_counterexample :
    hasTraversalSeg "/memories/../mem-evil/x" = true
    ∧ validatePath "/memories/../mem-evil/x" "/tmp/mem" = Except.ok "/tmp/mem-evil/x"
    ∧ componentWithin "/tmp/mem-evil/x" "/tmp/mem" = false :=
  ⟨by decide, by rfl, by decide⟩

/-- C2 (amended): for a virtual path with the `/memories` string prefix, the
validator succeeds with the lexically resolved physical path exactly when
that path extends the canonicalized root as a string, and otherwise fails
with a message containing `would escape /memories directory`; in particular
every path whose traversal segments lexically stay within the root
(component-wise) resolves successfully. -/
theorem c2_amended_traversal (root p : String)
    (hpre : isPfx "/memories".data p.data = true) :
    (isPfx (pathResolve root).data (resolvedTarget p root).data = true →
       validatePath p root = Except.ok (resolvedTarget p root))
    ∧ (isPfx (pathResolve root).data (resolvedTarget p root).data = false →
       validatePath p root = Except.error "Path would escape /memories directory"
       ∧ strContains "Path would escape /memories directory" "would escape /memories directory")
    ∧ (isPfx (componentsOf root)
         (normSegs (splitOnChar '/' (root.data ++ '/' :: p.data.drop ("/memories".data.length)))) = true →
       validatePath p root = Except.ok (resolvedTarget p root)) := by
  have hmain : ∀ hg : isPfx (pathResolve root).data (resolvedTarget p root).data = true,
      validatePath p root = Except.ok (resolvedTarget p root) := by
    intro hg
    unfold validatePath
    rw [if_pos hpre, if_pos hg]
  refine ⟨hmain, ?_, ?_⟩
  · intro h2
    constructor
    · unfold validatePath
      rw [if_pos hpre, if_neg (by simp [h2])]
    · exact strContains_of_decomp _ _ "Path ".data [] (by decide)
  · intro h2
    obtain ⟨t, ht⟩ := (isPfx_iff _ _).mp h2
    apply hmain
    show isPfx (renderAbs (componentsOf root))
      (renderAbs (normSegs (splitOnChar '/' (root.data ++ '/' :: p.data.drop ("/memories".data.length))))) = true
    rw [ht]
    exact renderAbs_isPfx _ _

theorem c2_amended_traversal_witness :
    (isPfx (pathResolve "/tmp/w2").data (resolvedTarget "/memories/sub/../notes.txt" "/tmp/w2").data = true →
       validatePath "/memories/sub/../notes.txt" "/tmp/w2"
         = Except.ok (resolvedTarget "/memories/sub/../notes.txt" "/tmp/w2"))
    ∧ (isPfx (pathResolve "/tmp/w2").data (resolvedTarget "/memories/sub/../notes.txt" "/tmp/w2").data = false →
       validatePath "/memories/sub/../notes.txt" "/tmp/w2"
         = Except.error "Path would escape /memories directory"
       ∧ strContains "Path would escape /memories directory" "would escape /memories directory")
    ∧ (isPfx (componentsOf "/tmp/w2")
         (normSegs (splitOnChar '/'
           ("/tmp/w2".data ++ '/' :: "/memories/sub/../notes.txt".data.drop ("/memories".data.length)))) = true →
       validatePath "/memories/sub/../notes.txt" "/tmp/w2"
         = Except.ok (resolvedTarget "/memories/sub/../notes.txt" "/tmp/w2")) :=
  c2_amended_traversal "/tmp/w2" "/memories/sub/../notes.txt" (by decide)

/-- C4 (counterexample): `/memoriesX/a.txt` does not begin with `/memories`
followed by a path boundary, yet the validator accepts it (resolving it to
`/tmp/mem2/X/a.txt`) instead of failing with the prefix error, because the
embedded namespace check is a plain string `startsWith('/memories')`. -/
theorem c4_boundary_counterexample :
    hasMemoriesBoundary "/memoriesX/a.txt" = false
    ∧ validatePath "/memoriesX/a.txt" "/tmp/mem2" = Except.ok "/tmp/mem2/X/a.txt" :=
  ⟨by decide, by rfl⟩

/-- C4 (amended): every virtual path that does not begin with the plain
string `/memories` — including the empty string and paths missing the
leading slash — fails with a message containing
`Path must start with /memories`; a path boundary after the prefix is not
required, so prefix-as-substring impostors such as `/memoriesX/...` pass the
namespace check. -/
theorem c4_amended_plain_check (p root : String)
    (h : isPfx "/memories".data p.data = false) :
    validatePath p root = Except.error "Path must start with /memories"
    ∧ strContains "Path must start with /memories" "Path must start with /memories" := by
  constructor
  · unfold validatePath
    rw [if_neg (by simp [h])]
  · exact strContains_of_decomp _ _ [] [] (by decide)

theorem c4_amended_plain_check_witness :
    validatePath "memories/file.txt" "/tmp/w4" = Except.error "Path must start with /memories"
    ∧ strContains "Path must start with /memories" "Path must start with /memories" :=
  c4_amended_plain_check "memories/file.txt" "/tmp/w4" (by decide)

theorem data_memories_child (name : String) :
    ("/memories/" ++ name).data = "/memories".data ++ '/' :: name.data := by
  rw [strData_append]
  have h : "/memories/".data = "/memories".data ++ ['/'] := by decide
  rw [h, List.append_assoc]
  rfl

theorem drop_memories_child (name : String) :
    ("/memories/" ++ name).data.drop ("/memories".data.length) = '/' :: name.data := by
  rw [data_memories_child]
  exact List.drop_left _ _

theorem isPfx_memories_child (name : String) :
    isPfx "/memories".data ("/memories/" ++ name).data = true := by
  rw [data_memories_child]
  exact isPfx_append_self _ _

/-- For a virtual path `/memories/<name>` whose single trailing component
contains no separator, the resolved target is the root's normalized
segments extended by one `normStep` on that component. -/
theorem resolvedTarget_child (root name : String) (hnosl : '/' ∉ name.data) :
    resolvedTarget ("/memories/" ++ name) root
      = ⟨renderAbs (normStep (componentsOf root) name.data)⟩ := by
  unfold resolvedTarget pathResolve
  rw [drop_memories_child]
  have hname : splitOnChar '/' name.data = [name.data] :=
    splitOnChar_no_sep '/' name.data hnosl
  have hslash : splitOnChar '/' ('/' :: name.data) = [] :: [name.data] := by
    simp [splitOnChar, hname]
  have hs : splitOnChar '/' (root.data ++ '/' :: '/' :: name.data)
      = splitOnChar '/' root.data ++ ([] :: [name.data]) := by
    rw [splitOnChar_append_sep, hslash]
  have hn : normSegs (splitOnChar '/' root.data ++ ([] :: [name.data]))
      = normStep (componentsOf root) name.data := by
    unfold normSegs componentsOf normSegs
    rw [List.foldl_append]
    simp [List.foldl, normStep]
  rw [hs, hn]

theorem renderAbs_append_single (R : List (List Char)) (hR : R ≠ []) (n : List Char) :
    renderAbs (R ++ [n]) = renderAbs R ++ '/' :: n := by
  cases R with
  | nil => exact absurd rfl hR
  | cons s rest =>
    show slashSegs ((s :: rest) ++ [n]) = slashSegs (s :: rest) ++ '/' :: n
    rw [slashSegs_append]
    simp [slashSegs]

/-- C9: backslash sequences in a path component are literal filename
characters, not separators: for every storage root (with a nonempty
normalized segment list, i.e. not the filesystem root) and every component
containing a backslash but no `/` — such as `..\..\etc\passwd` — the
validator accepts `/memories/<component>` and resolves it to the file
directly under the storage root whose name is that literal component; it is
not rejected as a traversal attempt. -/
theorem c9_backslash_literal (root name : String)
    (_hbs : '\\' ∈ name.data) (hnosl : '/' ∉ name.data)
    (hne : name.data ≠ []) (hnd : name.data ≠ ['.']) (hndd : name.data ≠ ['.', '.'])
    (hroot : componentsOf root ≠ []) :
    validatePath ("/memories/" ++ name) root
      = Except.ok ⟨(pathResolve root).data ++ '/' :: name.data⟩ := by
  have hstep : normStep (componentsOf root) name.data = componentsOf root ++ [name.data] := by
    simp [normStep, hne, hnd, hndd]
  have hrt : resolvedTarget ("/memories/" ++ name) root
      = ⟨renderAbs (componentsOf root ++ [name.data])⟩ := by
    rw [resolvedTarget_child root name hnosl, hstep]
  have hrender : renderAbs (componentsOf root ++ [name.data])
      = (pathResolve root).data ++ '/' :: name.data := by
    rw [renderAbs_append_single _ hroot]
    rfl
  have hguard : isPfx (pathResolve root).data
      (resolvedTarget ("/memories/" ++ name) root).data = true := by
    rw [hrt]
    show isPfx (pathResolve root).data (renderAbs (componentsOf root ++ [name.data])) = true
    rw [hrender]
    exact isPfx_append_self _ _
  unfold validatePath
  rw [if_pos (isPfx_memories_child name), if_pos hguard, hrt]
  exact congrArg Except.ok (congrArg String.mk hrender)

theorem c9_backslash_literal_witness :
    validatePath ("/memories/" ++ "..\\..\\etc\\passwd") "/tmp/test-memory"
      = Except.ok ⟨(pathResolve "/tmp/test-memory").data ++ '/' :: "..\\..\\etc\\passwd".data⟩ :=
  c9_backslash_literal "/tmp/test-memory" "..\\..\\etc\\passwd"
    (by decide) (by decide) (by decide) (by decide) (by decide) (by decide)

/-!
Operations layer. The repository's `src/memory/operations.ts` and
`src/memory/locking.ts` are not present under the source tree (only their
tests in `test/memory-operations.test.ts`, their caller
`src/server/mcp-server.ts`, and their documentation are). The definitions
below are therefore modelled from the specification, with message texts and
behaviors pinned by the operations test suite. The filesystem is an
association list from physical path strings to entries.
-/

/-- Modelled from the spec: a filesystem entry is a file with text content
or a directory (`operations.ts` works on files and directories through
`fs/promises`). -/
inductive Entry : Type
  | file (content : String) : Entry
  | dir : Entry
deriving DecidableEq

/-- Modelled from the spec: the storage tree as a finite map from physical
path to entry. -/
abbrev FS := List (String × Entry)

def fsGet : FS → String → Option Entry
  | [], _ => none
  | (q, e) :: rest, p => if p = q then some e else fsGet rest p

def fsSet (fs : FS) (p : String) (e : Entry) : FS :=
  (p, e) :: fs.filter (fun x => x.1 != p)

def fsRemove (fs : FS) (p : String) : FS :=
  fs.filter (fun x => x.1 != p)

theorem fsGet_fsSet_self (fs : FS) (p : String) (e : Entry) :
    fsGet (fsSet fs p e) p = some e := by
  simp [fsGet, fsSet]

/-- Runner pairing an operation result with the filesystem it leaves
behind: a successful operation installs its new filesystem, a failing one
leaves the filesystem unchanged. -/
def runOp (fs : FS) (r : Except String (FS × String)) : FS × Except String String :=
  match r with
  | Except.ok (fs2, m) => (fs2, Except.ok m)
  | Except.error e => (fs, Except.error e)

/-- Splitting a file's content into lines at newline characters; the
inverse direction of `joinSep` below. -/
def joinSep (sep : Char) : List (List Char) → List Char
  | [] => []
  | [l] => l
  | l :: l2 :: rest => l ++ sep :: joinSep sep (l2 :: rest)

theorem joinSep_cons (sep : Char) (x : List Char) (L : List (List Char)) (h : L ≠ []) :
    joinSep sep (x :: L) = x ++ sep :: joinSep sep L := by
  cases L with
  | nil => exact absurd rfl h
  | cons y rest => rfl

theorem joinSep_splitOnChar (sep : Char) (xs : List Char) :
    joinSep sep (splitOnChar sep xs) = xs := by
  induction xs with
  | nil => rfl
  | cons c rest ih =>
    obtain ⟨h, t, hht⟩ := splitOnChar_cons_exists sep rest
    by_cases hc : c = sep
    · subst hc
      rw [show splitOnChar c (c :: rest) = [] :: splitOnChar c rest by simp [splitOnChar, hht]]
      rw [joinSep_cons _ _ _ (splitOnChar_ne_nil c rest)]
      rw [ih]
      rfl
    · rw [show splitOnChar sep (c :: rest) = (c :: h) :: t by simp [splitOnChar, hht, hc]]
      rw [hht] at ih
      cases t with
      | nil =>
        rw [show joinSep sep [h] = h from rfl] at ih
        rw [show joinSep sep [c :: h] = c :: h from rfl]
        rw [← ih]
      | cons t1 ts =>
        rw [joinSep_cons _ _ _ (by simp)] at ih
        rw [joinSep_cons _ _ _ (by simp)]
        rw [List.cons_append, ih]

theorem joinSep_append_single (sep : Char) (L : List (List Char)) (y : List Char)
    (h : L ≠ []) : joinSep sep (L ++ [y]) = joinSep sep L ++ sep :: y := by
  induction L with
  | nil => exact absurd rfl h
  | cons x rest ih =>
    cases rest with
    | nil => rfl
    | cons r rs =>
      rw [List.cons_append, joinSep_cons _ _ _ (by simp), joinSep_cons _ _ _ (by simp)]
      rw [ih (by simp)]
      simp

/-- Modelled from the spec: replacement of the first occurrence of `needle`
by `repl`, as JS `String.prototype.replace` with a string pattern performs
inside `str_replace`. -/
def replaceFirst (needle repl : List Char) : List Char → List Char
  | [] => if needle = [] then repl else []
  | c :: rest =>
    if isPfx needle (c :: rest) then repl ++ List.drop needle.length (c :: rest)
    else c :: replaceFirst needle repl rest

theorem replaceFirst_decomp (needle repl hay : List Char)
    (h : 1 ≤ countOccs needle hay) :
    ∃ a b, hay = a ++ needle ++ b ∧ replaceFirst needle repl hay = a ++ repl ++ b := by
  induction hay with
  | nil =>
    rw [countOccs] at h
    by_cases hn : needle = []
    · exact ⟨[], [], by simp [hn], by simp [replaceFirst, hn]⟩
    · rw [if_neg hn] at h
      exact absurd h (by simp)
  | cons c rest ih =>
    by_cases hp : isPfx needle (c :: rest) = true
    · obtain ⟨t, ht⟩ := (isPfx_iff _ _).mp hp
      refine ⟨[], t, by simpa using ht, ?_⟩
      rw [replaceFirst, if_pos hp, ht, List.drop_left]
      simp
    · rw [countOccs, if_neg hp] at h
      simp only [Nat.zero_add] at h
      obtain ⟨a, b, hab, hrep⟩ := ih h
      refine ⟨c :: a, b, by simp [hab], ?_⟩
      rw [replaceFirst, if_neg hp, hrep]
      simp

theorem isPfx_mono_append {α : Type} [DecidableEq α] (l m t : List α)
    (h : isPfx l m = true) : isPfx l (m ++ t) = true := by
  obtain ⟨u, rfl⟩ := (isPfx_iff _ _).mp h
  rw [List.append_assoc]
  exact isPfx_append_self _ _

theorem countOccs_le_append_left (nd a b : List Char) :
    countOccs nd a ≤ countOccs nd (a ++ b) := by
  induction a with
  | nil =>
    cases nd with
    | nil => simpa [countOccs] using countOccs_nil_needle b
    | cons c r => simp [countOccs]
  | cons c rest ih =>
    rw [List.cons_append, countOccs, countOccs]
    by_cases hp : isPfx nd (c :: rest) = true
    · have hp2 : isPfx nd (c :: (rest ++ b)) = true := isPfx_mono_append nd (c :: rest) b hp
      rw [if_pos hp, if_pos hp2]
      exact Nat.add_le_add_left ih 1
    · rw [if_neg hp, Nat.zero_add]
      calc countOccs nd rest ≤ countOccs nd (rest ++ b) := ih
        _ ≤ _ := Nat.le_add_left _ _

theorem strContains_append_left (s t needle : String) (h : strContains s needle) :
    strContains (s ++ t) needle := by
  unfold strContains at h ⊢
  rw [strData_append]
  exact le_trans h (countOccs_le_append_left _ _ _)

theorem strContains_append_right (s t needle : String) (h : strContains t needle) :
    strContains (s ++ t) needle := by
  unfold strContains at h ⊢
  rw [strData_append]
  exact le_trans h (countOccs_le_append_right _ _ _)

/-! Modelled from the spec: the six memory operations of the missing
`src/memory/operations.ts`, with their error and confirmation texts pinned
by `test/memory-operations.test.ts` and the architecture documentation.
Each operation resolves its virtual path through `validatePath` and acts on
the filesystem map at the resolved physical path. -/

def notFoundMsg (path : String) : String := "Path not found: " ++ path

def fileNotFoundMsg (path : String) : String := "File not found: " ++ path

def notAFileMsg (path : String) : String := "Path is not a file: " ++ path

def notFoundTextMsg : String := "Text not found in file"

def appearsMsg (n : Nat) (path : String) : String :=
  "Text appears " ++ toString n ++ " times in " ++ path ++ ". Must be unique."

def editMsg (path : String) : String := "File " ++ path ++ " has been edited"

def createdMsg (path : String) : String := "File created successfully at " ++ path

def invalidLineMsg (i : Int) : String := "Invalid insert_line: " ++ toString i

def insertedMsg (i : Int) (path : String) : String :=
  "Text inserted at line " ++ toString i ++ " in " ++ path

def sourceNotFoundMsg (p : String) : String := "Source path not found: " ++ p

def destExistsMsg (p : String) : String := "Destination already exists: " ++ p

def renamedMsg (a b : String) : String := "Renamed " ++ a ++ " to " ++ b

/-- Modelled from the spec: hidden-entry test — a name whose first
character is the hidden-file marker `.`. -/
def isHiddenName (n : String) : Bool := n.data.head? == some '.'

/-- The immediate child name of `dirPhys` named by the key `key`, when
`key` is directly below `dirPhys`. -/
def childOf (dirPhys key : String) : Option String :=
  if isPfx (dirPhys.data ++ ['/']) key.data then
    let rest := key.data.drop (dirPhys.data.length + 1)
    if decide ('/' ∈ rest) then none else some ⟨rest⟩
  else none

def childNames (fs : FS) (dirPhys : String) : List String :=
  fs.filterMap (fun x => childOf dirPhys x.1)

/-- Modelled from the spec: directory listings exclude every child whose
name begins with the hidden-file marker. -/
def visibleChildNames (fs : FS) (dirPhys : String) : List String :=
  (childNames fs dirPhys).filter (fun n => !(isHiddenName n))

def renderChild (fs : FS) (dirPhys n : String) : String :=
  match fsGet fs ⟨dirPhys.data ++ '/' :: n.data⟩ with
  | some Entry.dir => "- " ++ n ++ "/\n"
  | _ => "- " ++ n ++ "\n"

def dirListing (fs : FS) (path dirPhys : String) : String :=
  "Directory: " ++ path ++ "\n"
    ++ String.join ((visibleChildNames fs dirPhys).map (renderChild fs dirPhys))

def padTo4 (s : List Char) : List Char := List.replicate (4 - s.length) ' ' ++ s

def renderNumberedLines (content : List Char) : List (List Char) :=
  (List.enum (splitOnChar '\n' content)).map
    (fun p => padTo4 (Nat.toDigits 10 (p.1 + 1)) ++ ':' :: ' ' :: p.2)

/-- A file's content rendered with 1-based line numbers prepended to each
line (`   1: first line` and so on), as `view` returns it. -/
def renderNumbered (text : String) : String :=
  ⟨joinSep '\n' (renderNumberedLines text.data)⟩

/-- Modelled from the spec: `view` — directory listing with hidden entries
excluded and `/`-suffixed directories, or line-numbered file content with an
optional `[start, end]` slice where `end = -1` means end of file. -/
def viewCore (path : String) (range : Option (Int × Int)) (fs : FS) (phys : String) :
    Except String String :=
  match fsGet fs phys with
  | none => Except.error (notFoundMsg path)
  | some Entry.dir => Except.ok (dirListing fs path phys)
  | some (Entry.file content) =>
    match range with
    | none => Except.ok (renderNumbered content)
    | some (s, e) =>
      let numbered := renderNumberedLines content.data
      let fromStart := numbered.drop (s - 1).toNat
      let sel := if e = -1 then fromStart else fromStart.take (e - s + 1).toNat
      Except.ok ⟨joinSep '\n' sel⟩

def view (root path : String) (range : Option (Int × Int)) (fs : FS) : Except String String :=
  match validatePath path root with
  | Except.error e => Except.error e
  | Except.ok phys => viewCore path range fs phys

/-- Modelled from the spec: `create` — write or overwrite the file with the
given content exactly (parent directories are made as needed, which the
path-keyed map renders implicit). -/
def create (root path file_text : String) (fs : FS) : Except String (FS × String) :=
  match validatePath path root with
  | Except.error e => Except.error e
  | Except.ok phys => Except.ok (fsSet fs phys (Entry.file file_text), createdMsg path)

/-- Modelled from the spec: `str_replace` — require `old_str` to occur in
the file content exactly once, replace it with `new_str`; reject a missing
file, a directory target, zero occurrences, or two and more occurrences
(reporting the literal count). -/
def strReplaceCore (path old_str new_str : String) (fs : FS) (phys : String) :
    Except String (FS × String) :=
  match fsGet fs phys with
  | none => Except.error (fileNotFoundMsg path)
  | some Entry.dir => Except.error (notAFileMsg path)
  | some (Entry.file content) =>
    if countOccs old_str.data content.data = 0 then Except.error notFoundTextMsg
    else if countOccs old_str.data content.data = 1 then
      Except.ok
        (fsSet fs phys (Entry.file ⟨replaceFirst old_str.data new_str.data content.data⟩),
         editMsg path)
    else Except.error (appearsMsg (countOccs old_str.data content.data) path)

def str_replace (root path old_str new_str : String) (fs : FS) :
    Except String (FS × String) :=
  match validatePath path root with
  | Except.error e => Except.error e
  | Except.ok phys => strReplaceCore path old_str new_str fs phys

/-- Modelled from the spec: `insert` — split the file into lines, insert
`insert_text` as a new line at 0-based position `insert_line` whose valid
range is `[0, lineCount]` inclusive, rejoin; reject positions outside that
range. -/
def insertCore (path : String) (insert_line : Int) (insert_text : String) (fs : FS)
    (phys : String) : Except String (FS × String) :=
  match fsGet fs phys with
  | none => Except.error (fileNotFoundMsg path)
  | some Entry.dir => Except.error (notAFileMsg path)
  | some (Entry.file content) =>
    if 0 ≤ insert_line ∧ insert_line ≤ ((splitOnChar '\n' content.data).length : Int) then
      Except.ok
        (fsSet fs phys (Entry.file
          ⟨joinSep '\n'
            ((splitOnChar '\n' content.data).take insert_line.toNat
              ++ [insert_text.data]
              ++ (splitOnChar '\n' content.data).drop insert_line.toNat)⟩),
         insertedMsg insert_line path)
    else Except.error (invalidLineMsg insert_line)

def insert (root path : String) (insert_line : Int) (insert_text : String) (fs : FS) :
    Except String (FS × String) :=
  match validatePath path root with
  | Except.error e => Except.error e
  | Except.ok phys => insertCore path insert_line insert_text fs phys

/-- Modelled from the spec: `rename` — move the entry from the old to the
new path; reject a missing source (checked first, as the failure table
lists it) and an existing destination, never silently overwriting. -/
def renameCore (old_path new_path : String) (fs : FS) (oldPhys newPhys : String) :
    Except String (FS × String) :=
  match fsGet fs oldPhys with
  | none => Except.error (sourceNotFoundMsg old_path)
  | some e =>
    match fsGet fs newPhys with
    | some _ => Except.error (destExistsMsg new_path)
    | none => Except.ok (fsSet (fsRemove fs oldPhys) newPhys e, renamedMsg old_path new_path)

def rename (root old_path new_path : String) (fs : FS) : Except String (FS × String) :=
  match validatePath old_path root with
  | Except.error e => Except.error e
  | Except.ok oldPhys =>
    match validatePath new_path root with
    | Except.error e => Except.error e
    | Except.ok newPhys => renameCore old_path new_path fs oldPhys newPhys

theorem view_ok (root path : String) (range : Option (Int × Int)) (fs : FS) (phys : String)
    (hv : validatePath path root = Except.ok phys) :
    view root path range fs = viewCore path range fs phys := by
  unfold view
  rw [hv]

theorem str_replace_ok (root path old_str new_str : String) (fs : FS) (phys : String)
    (hv : validatePath path root = Except.ok phys) :
    str_replace root path old_str new_str fs = strReplaceCore path old_str new_str fs phys := by
  unfold str_replace
  rw [hv]

theorem insert_ok (root path : String) (i : Int) (t : String) (fs : FS) (phys : String)
    (hv : validatePath path root = Except.ok phys) :
    insert root path i t fs = insertCore path i t fs phys := by
  unfold insert
  rw [hv]

theorem rename_ok (root old_path new_path : String) (fs : FS) (oldPhys newPhys : String)
    (hv1 : validatePath old_path root = Except.ok oldPhys)
    (hv2 : validatePath new_path root = Except.ok newPhys) :
    rename root old_path new_path fs = renameCore old_path new_path fs oldPhys newPhys := by
  unfold rename
  rw [hv1, hv2]

/-- C5 (counterexample): in the file `ab`, the string `a` occurs exactly
once, so `str_replace` of `a` by `b` succeeds — but the resulting file `bb`
contains the substituted string `b` twice, not exactly once, refuting the
claimed post-state. -/
theorem c5_substitution_counterexample :
    str_replace "/tmp/m5" "/memories/t.txt" "a" "b" [("/tmp/m5/t.txt", Entry.file "ab")]
      = Except.ok ([("/tmp/m5/t.txt", Entry.file "bb")], editMsg "/memories/t.txt")
    ∧ countOccs "a".data "ab".data = 1
    ∧ countOccs "b".data "bb".data = 2 :=
  ⟨by rfl, by decide, by decide⟩

/-- C5 (amended): for an existing file, `str_replace` succeeds exactly when
`old_str` occurs exactly once in the content, and then the file becomes the
original with that unique occurrence replaced by `new_str` (the replacement
text itself need not occur exactly once afterwards); zero occurrences fail
with `Text not found`, `N ≥ 2` occurrences fail with a message containing
`appears N times` and `Must be unique`; a directory target fails with a
not-a-file error. -/
theorem c5_amended_str_replace (root path old_str new_str : String) (fs : FS) (phys : String)
    (hv : validatePath path root = Except.ok phys) :
    (fsGet fs phys = some Entry.dir →
       str_replace root path old_str new_str fs = Except.error (notAFileMsg path)
       ∧ strContains (notAFileMsg path) "not a file")
    ∧ (∀ content, fsGet fs phys = some (Entry.file content) →
        ((∃ r, str_replace root path old_str new_str fs = Except.ok r)
           ↔ countOccs old_str.data content.data = 1)
        ∧ (countOccs old_str.data content.data = 0 →
            str_replace root path old_str new_str fs = Except.error notFoundTextMsg
            ∧ strContains notFoundTextMsg "Text not found")
        ∧ (countOccs old_str.data content.data = 1 →
            ∃ a b, content.data = a ++ old_str.data ++ b
              ∧ str_replace root path old_str new_str fs
                  = Except.ok
                      (fsSet fs phys (Entry.file ⟨a ++ new_str.data ++ b⟩), editMsg path))
        ∧ (∀ n, countOccs old_str.data content.data = n → 2 ≤ n →
            str_replace root path old_str new_str fs = Except.error (appearsMsg n path)
            ∧ strContains (appearsMsg n path) ("appears " ++ toString n ++ " times")
            ∧ strContains (appearsMsg n path) "Must be unique")) := by
  have hglue := str_replace_ok root path old_str new_str fs phys hv
  constructor
  · intro hd
    constructor
    · rw [hglue]
      unfold strReplaceCore
      rw [hd]
    · unfold notAFileMsg
      exact strContains_append_left _ _ _ (by decide)
  · intro content hc
    have hred : str_replace root path old_str new_str fs =
        (if countOccs old_str.data content.data = 0 then Except.error notFoundTextMsg
         else if countOccs old_str.data content.data = 1 then
           Except.ok
             (fsSet fs phys
               (Entry.file ⟨replaceFirst old_str.data new_str.data content.data⟩),
              editMsg path)
         else Except.error (appearsMsg (countOccs old_str.data content.data) path)) := by
      rw [hglue]
      unfold strReplaceCore
      rw [hc]
    refine ⟨?_, ?_, ?_, ?_⟩
    · constructor
      · rintro ⟨r, hr⟩
        by_cases hn0 : countOccs old_str.data content.data = 0
        · rw [hred, if_pos hn0] at hr
          exact Except.noConfusion hr
        · by_cases hn1 : countOccs old_str.data content.data = 1
          · exact hn1
          · rw [hred, if_neg hn0, if_neg hn1] at hr
            exact Except.noConfusion hr
      · intro h1
        rw [hred, if_neg (by simp [h1]), if_pos h1]
        exact ⟨_, rfl⟩
    · intro h0
      constructor
      · rw [hred, if_pos h0]
      · exact (by decide : strContains notFoundTextMsg "Text not found")
    · intro h1
      obtain ⟨a, b, hab, hrep⟩ :=
        replaceFirst_decomp old_str.data new_str.data content.data (by rw [h1])
      refine ⟨a, b, hab, ?_⟩
      rw [hred, if_neg (by simp [h1]), if_pos h1, hrep]
    · intro n hn h2
      refine ⟨?_, ?_, ?_⟩
      · rw [hred, if_neg (by omega), if_neg (by omega), hn]
      · have e1 : "Text appears ".data = "Text ".data ++ "appears ".data := by decide
        have e2 : " times in ".data = " times".data ++ " in ".data := by decide
        apply strContains_of_decomp _ _ "Text ".data
          (" in ".data ++ (path.data ++ ". Must be unique.".data))
        simp [appearsMsg, strData_append, e1, e2, List.append_assoc]
      · unfold appearsMsg
        exact strContains_append_right _ _ _ (by decide)

theorem c5_amended_str_replace_witness :
    (fsGet [("/tmp/w5/t.txt", Entry.file "axyb")] "/tmp/w5/t.txt" = some Entry.dir →
       str_replace "/tmp/w5" "/memories/t.txt" "xy" "z" [("/tmp/w5/t.txt", Entry.file "axyb")]
         = Except.error (notAFileMsg "/memories/t.txt")
       ∧ strContains (notAFileMsg "/memories/t.txt") "not a file")
    ∧ (∀ content,
        fsGet [("/tmp/w5/t.txt", Entry.file "axyb")] "/tmp/w5/t.txt"
          = some (Entry.file content) →
        ((∃ r, str_replace "/tmp/w5" "/memories/t.txt" "xy" "z"
                 [("/tmp/w5/t.txt", Entry.file "axyb")] = Except.ok r)
           ↔ countOccs "xy".data content.data = 1)
        ∧ (countOccs "xy".data content.data = 0 →
            str_replace "/tmp/w5" "/memories/t.txt" "xy" "z"
                [("/tmp/w5/t.txt", Entry.file "axyb")] = Except.error notFoundTextMsg
            ∧ strContains notFoundTextMsg "Text not found")
        ∧ (countOccs "xy".data content.data = 1 →
            ∃ a b, content.data = a ++ "xy".data ++ b
              ∧ str_replace "/tmp/w5" "/memories/t.txt" "xy" "z"
                    [("/tmp/w5/t.txt", Entry.file "axyb")]
                  = Except.ok
                      (fsSet [("/tmp/w5/t.txt", Entry.file "axyb")] "/tmp/w5/t.txt"
                        (Entry.file ⟨a ++ "z".data ++ b⟩), editMsg "/memories/t.txt"))
        ∧ (∀ n, countOccs "xy".data content.data = n → 2 ≤ n →
            str_replace "/tmp/w5" "/memories/t.txt" "xy" "z"
                [("/tmp/w5/t.txt", Entry.file "axyb")] = Except.error (appearsMsg n "/memories/t.txt")
            ∧ strContains (appearsMsg n "/memories/t.txt") ("appears " ++ toString n ++ " times")
            ∧ strContains (appearsMsg n "/memories/t.txt") "Must be unique")) :=
  c5_amended_str_replace "/tmp/w5" "/memories/t.txt" "xy" "z"
    [("/tmp/w5/t.txt", Entry.file "axyb")] "/tmp/w5/t.txt" (by rfl)

/-- C6: for an existing file, `insert` at line 0 prepends `insert_text` as
the new first line, `insert` at the current line count appends it as the
new last line, any position strictly between places it at that 0-based
line, and any negative position or one beyond the line count fails with the
invalid-line error, leaving the filesystem unchanged. -/
theorem c6_insert_positions (root path t : String) (fs : FS) (phys content : String)
    (hv : validatePath path root = Except.ok phys)
    (hc : fsGet fs phys = some (Entry.file content)) :
    (insert root path 0 t fs
       = Except.ok (fsSet fs phys (Entry.file ⟨t.data ++ '\n' :: content.data⟩),
           insertedMsg 0 path))
    ∧ (insert root path ((splitOnChar '\n' content.data).length : Int) t fs
       = Except.ok (fsSet fs phys (Entry.file ⟨content.data ++ '\n' :: t.data⟩),
           insertedMsg ((splitOnChar '\n' content.data).length : Int) path))
    ∧ (∀ i : Int, 0 < i → i < ((splitOnChar '\n' content.data).length : Int) →
        insert root path i t fs
          = Except.ok (fsSet fs phys (Entry.file
              ⟨joinSep '\n' ((splitOnChar '\n' content.data).take i.toNat
                ++ [t.data] ++ (splitOnChar '\n' content.data).drop i.toNat)⟩),
              insertedMsg i path))
    ∧ (∀ i : Int, i < 0 ∨ ((splitOnChar '\n' content.data).length : Int) < i →
        runOp fs (insert root path i t fs) = (fs, Except.error (invalidLineMsg i))
        ∧ strContains (invalidLineMsg i) "Invalid insert_line") := by
  have hred : ∀ i : Int, insert root path i t fs =
      (if 0 ≤ i ∧ i ≤ ((splitOnChar '\n' content.data).length : Int) then
        Except.ok
          (fsSet fs phys (Entry.file
            ⟨joinSep '\n' ((splitOnChar '\n' content.data).take i.toNat
              ++ [t.data] ++ (splitOnChar '\n' content.data).drop i.toNat)⟩),
           insertedMsg i path)
      else Except.error (invalidLineMsg i)) := by
    intro i
    rw [insert_ok root path i t fs phys hv]
    unfold insertCore
    rw [hc]
  refine ⟨?_, ?_, ?_, ?_⟩
  · have h0 : joinSep '\n' ((splitOnChar '\n' content.data).take ((0 : Int)).toNat
        ++ [t.data] ++ (splitOnChar '\n' content.data).drop ((0 : Int)).toNat)
        = t.data ++ '\n' :: content.data := by
      simp only [Int.toNat_zero, List.take_zero, List.drop_zero, List.nil_append,
        List.singleton_append]
      rw [joinSep_cons _ _ _ (splitOnChar_ne_nil _ _), joinSep_splitOnChar]
    rw [hred 0, if_pos (by constructor <;> omega), h0]
  · have hlen : joinSep '\n'
        ((splitOnChar '\n' content.data).take
            (((splitOnChar '\n' content.data).length : Int)).toNat
          ++ [t.data]
          ++ (splitOnChar '\n' content.data).drop
            (((splitOnChar '\n' content.data).length : Int)).toNat)
        = content.data ++ '\n' :: t.data := by
      rw [show (((splitOnChar '\n' content.data).length : Int)).toNat
            = (splitOnChar '\n' content.data).length by omega]
      rw [List.take_length, List.drop_length, List.append_nil]
      rw [joinSep_append_single _ _ _ (splitOnChar_ne_nil _ _), joinSep_splitOnChar]
    rw [hred _, if_pos (by constructor <;> omega), hlen]
  · intro i h1 h2
    rw [hred i, if_pos (by constructor <;> omega)]
  · intro i hi
    constructor
    · rw [hred i, if_neg (by intro hcon; rcases hi with h | h <;> omega)]
      rfl
    · unfold invalidLineMsg
      exact strContains_append_left _ _ _ (by decide)

theorem c6_insert_positions_witness :
    (insert "/tmp/w6" "/memories/t.txt" 0 "mid" [("/tmp/w6/t.txt", Entry.file "l1\nl2")]
       = Except.ok (fsSet [("/tmp/w6/t.txt", Entry.file "l1\nl2")] "/tmp/w6/t.txt"
           (Entry.file ⟨"mid".data ++ '\n' :: "l1\nl2".data⟩),
           insertedMsg 0 "/memories/t.txt"))
    ∧ (insert "/tmp/w6" "/memories/t.txt" ((splitOnChar '\n' "l1\nl2".data).length : Int) "mid"
         [("/tmp/w6/t.txt", Entry.file "l1\nl2")]
       = Except.ok (fsSet [("/tmp/w6/t.txt", Entry.file "l1\nl2")] "/tmp/w6/t.txt"
           (Entry.file ⟨"l1\nl2".data ++ '\n' :: "mid".data⟩),
           insertedMsg ((splitOnChar '\n' "l1\nl2".data).length : Int) "/memories/t.txt"))
    ∧ (∀ i : Int, 0 < i → i < ((splitOnChar '\n' "l1\nl2".data).length : Int) →
        insert "/tmp/w6" "/memories/t.txt" i "mid" [("/tmp/w6/t.txt", Entry.file "l1\nl2")]
          = Except.ok (fsSet [("/tmp/w6/t.txt", Entry.file "l1\nl2")] "/tmp/w6/t.txt"
              (Entry.file ⟨joinSep '\n' ((splitOnChar '\n' "l1\nl2".data).take i.toNat
                ++ ["mid".data] ++ (splitOnChar '\n' "l1\nl2".data).drop i.toNat)⟩),
              insertedMsg i "/memories/t.txt"))
    ∧ (∀ i : Int, i < 0 ∨ ((splitOnChar '\n' "l1\nl2".data).length : Int) < i →
        runOp [("/tmp/w6/t.txt", Entry.file "l1\nl2")]
            (insert "/tmp/w6" "/memories/t.txt" i "mid" [("/tmp/w6/t.txt", Entry.file "l1\nl2")])
          = ([("/tmp/w6/t.txt", Entry.file "l1\nl2")], Except.error (invalidLineMsg i))
        ∧ strContains (invalidLineMsg i) "Invalid insert_line") :=
  c6_insert_positions "/tmp/w6" "/memories/t.txt" "mid"
    [("/tmp/w6/t.txt", Entry.file "l1\nl2")] "/tmp/w6/t.txt" "l1\nl2" (by rfl) (by decide)

/-- C7 (counterexample): when the source is absent and the destination
exists, `rename` fails with the source-not-found error rather than the
claimed destination-exists error (the source check runs first), so the
claim's first universal — destination exists implies
`DestinationExistsError` — fails at this input. -/
theorem c7_order_counterexample :
    fsGet [("/tmp/m7/b.txt", Entry.file "x")] "/tmp/m7/b.txt" = some (Entry.file "x")
    ∧ rename "/tmp/m7" "/memories/a.txt" "/memories/b.txt" [("/tmp/m7/b.txt", Entry.file "x")]
        = Except.error (sourceNotFoundMsg "/memories/a.txt")
    ∧ ¬ strContains (sourceNotFoundMsg "/memories/a.txt") "Destination already exists" :=
  ⟨by decide, by rfl, by decide⟩

/-- C7 (amended): when the source exists and the destination already
exists, `rename` fails with the destination-exists error and leaves the
filesystem — both files — unchanged, never silently overwriting; when the
source is absent, `rename` fails with the source-not-found error (this
check precedes the destination check, so it fires even when the destination
also exists), again leaving the filesystem unchanged. -/
theorem c7_amended_rename (root op np : String) (fs : FS) (oldPhys newPhys : String)
    (hv1 : validatePath op root = Except.ok oldPhys)
    (hv2 : validatePath np root = Except.ok newPhys) :
    (∀ e e2, fsGet fs oldPhys = some e → fsGet fs newPhys = some e2 →
       runOp fs (rename root op np fs) = (fs, Except.error (destExistsMsg np))
       ∧ strContains (destExistsMsg np) "Destination already exists")
    ∧ (fsGet fs oldPhys = none →
       runOp fs (rename root op np fs) = (fs, Except.error (sourceNotFoundMsg op))
       ∧ strContains (sourceNotFoundMsg op) "Source path not found") := by
  have hglue := rename_ok root op np fs oldPhys newPhys hv1 hv2
  constructor
  · intro e e2 he he2
    constructor
    · rw [hglue]
      unfold renameCore
      rw [he, he2]
      rfl
    · unfold destExistsMsg
      exact strContains_append_left _ _ _ (by decide)
  · intro he
    constructor
    · rw [hglue]
      unfold renameCore
      rw [he]
      rfl
    · unfold sourceNotFoundMsg
      exact strContains_append_left _ _ _ (by decide)

theorem c7_amended_rename_witness :
    (∀ e e2,
       fsGet [("/tmp/w7/a.txt", Entry.file "c1"), ("/tmp/w7/b.txt", Entry.file "c2")]
           "/tmp/w7/a.txt" = some e →
       fsGet [("/tmp/w7/a.txt", Entry.file "c1"), ("/tmp/w7/b.txt", Entry.file "c2")]
           "/tmp/w7/b.txt" = some e2 →
       runOp [("/tmp/w7/a.txt", Entry.file "c1"), ("/tmp/w7/b.txt", Entry.file "c2")]
           (rename "/tmp/w7" "/memories/a.txt" "/memories/b.txt"
             [("/tmp/w7/a.txt", Entry.file "c1"), ("/tmp/w7/b.txt", Entry.file "c2")])
         = ([("/tmp/w7/a.txt", Entry.file "c1"), ("/tmp/w7/b.txt", Entry.file "c2")],
            Except.error (destExistsMsg "/memories/b.txt"))
       ∧ strContains (destExistsMsg "/memories/b.txt") "Destination already exists")
    ∧ (fsGet [("/tmp/w7/a.txt", Entry.file "c1"), ("/tmp/w7/b.txt", Entry.file "c2")]
           "/tmp/w7/a.txt" = none →
       runOp [("/tmp/w7/a.txt", Entry.file "c1"), ("/tmp/w7/b.txt", Entry.file "c2")]
           (rename "/tmp/w7" "/memories/a.txt" "/memories/b.txt"
             [("/tmp/w7/a.txt", Entry.file "c1"), ("/tmp/w7/b.txt", Entry.file "c2")])
         = ([("/tmp/w7/a.txt", Entry.file "c1"), ("/tmp/w7/b.txt", Entry.file "c2")],
            Except.error (sourceNotFoundMsg "/memories/a.txt"))
       ∧ strContains (sourceNotFoundMsg "/memories/a.txt") "Source path not found") :=
  c7_amended_rename "/tmp/w7" "/memories/a.txt" "/memories/b.txt"
    [("/tmp/w7/a.txt", Entry.file "c1"), ("/tmp/w7/b.txt", Entry.file "c2")]
    "/tmp/w7/a.txt" "/tmp/w7/b.txt" (by rfl) (by rfl)

/-- C8: round-trip — for every valid path, `create(path, text)` succeeds
and a subsequent `view(path)` returns exactly `text` reconstructed with the
correct 1-based line number prepended to each line (`renderNumbered`
numbers the lines of `text` from 1). -/
theorem c8_create_view_roundtrip (root path text : String) (fs : FS) (phys : String)
    (hv : validatePath path root = Except.ok phys) :
    ∃ fs2 msg, create root path text fs = Except.ok (fs2, msg)
      ∧ view root path none fs2 = Except.ok (renderNumbered text) := by
  refine ⟨fsSet fs phys (Entry.file text), createdMsg path, ?_, ?_⟩
  · unfold create
    rw [hv]
  · rw [view_ok root path none _ phys hv]
    unfold viewCore
    rw [fsGet_fsSet_self]

theorem c8_create_view_roundtrip_witness :
    ∃ fs2 msg,
      create "/tmp/w8" "/memories/notes.txt" "alpha\nbeta" [] = Except.ok (fs2, msg)
      ∧ view "/tmp/w8" "/memories/notes.txt" none fs2
          = Except.ok (renderNumbered "alpha\nbeta") :=
  c8_create_view_roundtrip "/tmp/w8" "/memories/notes.txt" "alpha\nbeta" []
    "/tmp/w8/notes.txt" (by rfl)

/-- C10 (counterexample): the final component of `/memories/..` begins with
`.`, yet the validator rejects the path with the escape error instead of
accepting it, so the claim's universal over all paths whose final component
begins with `.` fails at this input. -/
theorem c10_dotdot_counterexample :
    ("..".data.head? = some '.')
    ∧ validatePath ("/memories/" ++ "..") "/tmp/mem3"
        = Except.error "Path would escape /memories directory" :=
  ⟨by decide, by rfl⟩

/-- C10 (amended): for every final component that begins with `.` and is
not the traversal segment `..` (and contains no separator), the validator
accepts `/memories/<component>` — so such a hidden file is creatable and
viewable by its direct path — while the name never appears among the
visible children any directory listing renders, since listings exclude
every child whose name begins with the hidden marker. -/
theorem c10_amended_hidden (root name : String) (fs : FS) (dirPhys : String)
    (hh : name.data.head? = some '.') (hndd : name.data ≠ ['.', '.'])
    (hnosl : '/' ∉ name.data) :
    (∃ physPath, validatePath ("/memories/" ++ name) root = Except.ok physPath)
    ∧ name ∉ visibleChildNames fs dirPhys := by
  constructor
  · by_cases hd : name.data = ['.']
    · refine ⟨pathResolve root, ?_⟩
      have hstep : normStep (componentsOf root) name.data = componentsOf root := by
        simp [normStep, hd]
      have hrt : resolvedTarget ("/memories/" ++ name) root
          = ⟨renderAbs (componentsOf root)⟩ := by
        rw [resolvedTarget_child root name hnosl, hstep]
      have hguard : isPfx (pathResolve root).data
          (resolvedTarget ("/memories/" ++ name) root).data = true := by
        rw [hrt]
        exact isPfx_refl ((pathResolve root).data)
      unfold validatePath
      rw [if_pos (isPfx_memories_child name), if_pos hguard, hrt]
      rfl
    · have hne : name.data ≠ [] := by
        intro h0
        rw [h0] at hh
        simp at hh
      have hstep : normStep (componentsOf root) name.data
          = componentsOf root ++ [name.data] := by
        simp [normStep, hne, hd, hndd]
      have hrt : resolvedTarget ("/memories/" ++ name) root
          = ⟨renderAbs (componentsOf root ++ [name.data])⟩ := by
        rw [resolvedTarget_child root name hnosl, hstep]
      refine ⟨⟨renderAbs (componentsOf root ++ [name.data])⟩, ?_⟩
      have hguard : isPfx (pathResolve root).data
          (resolvedTarget ("/memories/" ++ name) root).data = true := by
        rw [hrt]
        show isPfx (renderAbs (componentsOf root))
          (renderAbs (componentsOf root ++ [name.data])) = true
        exact renderAbs_isPfx _ _
      unfold validatePath
      rw [if_pos (isPfx_memories_child name), if_pos hguard, hrt]
  · intro hmem
    rw [visibleChildNames] at hmem
    have h2 := (List.mem_filter.mp hmem).2
    rw [show isHiddenName name = true by simp [isHiddenName, hh]] at h2
    simp at h2

theorem c10_amended_hidden_witness :
    (∃ physPath, validatePath ("/memories/" ++ ".cfg") "/tmp/w10" = Except.ok physPath)
    ∧ (".cfg" : String) ∉
        visibleChildNames [("/tmp/w10/.cfg", Entry.file "s")] "/tmp/w10" :=
  c10_amended_hidden "/tmp/w10" ".cfg" [("/tmp/w10/.cfg", Entry.file "s")] "/tmp/w10"
    (by decide) (by decide) (by decide)

/-!
Concurrency coordinator. The repository's `src/memory/locking.ts` is not
present under the source tree; its write-mode behavior is modelled from the
specification's Concurrency Coordinator state machine (Snapshotting →
LockWaiting → Locked → Verifying → Mutating or Aborted, lock released on
every exit path) with the conflict message pinned by the architecture
documentation.
-/

/-- Modelled from the spec: the observable events of one write-mode
coordinated operation, in order. -/
inductive CoordEvent : Type
  | snapshotTaken (t : Option Nat) : CoordEvent
  | lockAcquired : CoordEvent
  | mtimeReread (t : Option Nat) : CoordEvent
  | mutationRun : CoordEvent
  | conflictAborted : CoordEvent
  | lockReleased : CoordEvent
deriving DecidableEq

/-- The final state, event trace, and result of one coordinated call. -/
structure CoordOutcome (σ : Type) : Type where
  finalState : σ
  events : List CoordEvent
  result : Except String Unit

def conflictMsg : String :=
  "File has been modified by another process. Please read the file again and retry your operation."

/-- Modelled from the spec: a write-mode `withCoordination` call of the
missing `src/memory/locking.ts`. The Snapshot (`none` meaning the target
did not exist) is taken before lock acquisition; once the lock is acquired
the target's last-modified time is re-read; if it differs from the Snapshot
— including absent-to-present and present-to-absent transitions — the call
aborts with `ConflictError` without running the wrapped mutation `fn` and
releases the lock; if unchanged, `fn` runs and the lock is released
afterwards. -/
def writeCoordinate {σ : Type} (snapshot postLock : Option Nat) (fn : σ → σ) (s : σ) :
    CoordOutcome σ :=
  if postLock ≠ snapshot then
    { finalState := s
      events := [CoordEvent.snapshotTaken snapshot, CoordEvent.lockAcquired,
                 CoordEvent.mtimeReread postLock, CoordEvent.conflictAborted,
                 CoordEvent.lockReleased]
      result := Except.error conflictMsg }
  else
    { finalState := fn s
      events := [CoordEvent.snapshotTaken snapshot, CoordEvent.lockAcquired,
                 CoordEvent.mtimeReread postLock, CoordEvent.mutationRun,
                 CoordEvent.lockReleased]
      result := Except.ok () }

/-- C3: a write-mode operation whose post-lock re-read of the target's
timestamp differs from its pre-lock Snapshot (in any direction, including
absent-to-present and present-to-absent) never mutates the state, aborts
with the conflict error, never runs the wrapped mutation, and releases the
lock. -/
theorem c3_conflict_no_mutation {σ : Type} (snapshot postLock : Option Nat)
    (fn : σ → σ) (s : σ) (hne : postLock ≠ snapshot) :
    (writeCoordinate snapshot postLock fn s).finalState = s
    ∧ (writeCoordinate snapshot postLock fn s).result = Except.error conflictMsg
    ∧ CoordEvent.mutationRun ∉ (writeCoordinate snapshot postLock fn s).events
    ∧ CoordEvent.lockReleased ∈ (writeCoordinate snapshot postLock fn s).events := by
  unfold writeCoordinate
  rw [if_pos hne]
  refine ⟨rfl, rfl, ?_, ?_⟩
  · simp
  · simp

theorem c3_conflict_no_mutation_witness :
    (writeCoordinate none (some 5) Nat.succ 0).finalState = 0
    ∧ (writeCoordinate none (some 5) Nat.succ 0).result = Except.error conflictMsg
    ∧ CoordEvent.mutationRun ∉ (writeCoordinate none (some 5) Nat.succ 0).events
    ∧ CoordEvent.lockReleased ∈ (writeCoordinate none (some 5) Nat.succ 0).events :=
  c3_conflict_no_mutation none (some 5) Nat.succ 0 (by decide)

end MemoryMcp
